import Mathlib

/-
Verification of the HermesDB core against its specification.

The development shallowly embeds two components of the repository:

* the extendible hash table (`extendiblehashtable/extendiblehashtable.go`
  together with `extendiblehashtable/bucket/bucket.go`), and
* the LRU-K replacer (package `lruk`, the `FrameIdT`-keyed version whose
  operations carry the active `checkOverstep` range check).

Modelling conventions:

* Go strings (hash table keys) are byte lists (`List Nat`); `helper.Hash32`
  (FNV-1, 32 bit) is embedded directly over those bytes.
* `SizeT` and `FrameIdT` live in the `define` package, which is not part of
  the sources here.  Modelled from the spec: both are non-negative integers
  ("unsigned integer", "non-negative integer wide enough for directory
  length"), so both become `Nat`.
* Go pointers to buckets are indices into an arena list `buckets`; two
  directory slots alias the same bucket exactly when they store the same
  index, which models Go pointer equality.
* Go maps are association lists; the node-handle maps of the replacer are
  modelled by their key sets, since a stored handle is exactly the unique
  list node of that frame.  A lookup of a missing key yields the zero value
  (0 for counts, false for flags), as in Go.
* A Go panic (frame id out of range, removing a non-evictable frame,
  dereferencing the nil node handle returned by a missing map key) is
  modelled as the result `none`; mutating operations therefore return
  `Option`.
* Loops without a structural bound take fuel; `none` also covers fuel
  exhaustion, so a run of the Go loop that terminates is exactly a fuel
  value making the function return `some`.
* The locks (`sync.RWMutex`) are dropped: the embedding is the sequential
  semantics of each operation.
-/

set_option autoImplicit false

namespace HermesDB

/-! ## Go map model: association lists keyed by Nat -/

/-- Lookup in a Go map modelled as an association list. -/
def mget {α : Type} : List (Nat × α) → Nat → Option α
  | [], _ => none
  | p :: rest, x => if p.1 = x then some p.2 else mget rest x

/-- Go `delete(m, x)`. -/
def mdel {α : Type} (m : List (Nat × α)) (x : Nat) : List (Nat × α) :=
  m.filter fun p => p.1 != x

/-- Go `m[x] = v` (insert or overwrite). -/
def mset {α : Type} (m : List (Nat × α)) (x : Nat) (v : α) : List (Nat × α) :=
  (x, v) :: mdel m x

/-- The keys of a Go map. -/
def mkeys {α : Type} (m : List (Nat × α)) : List Nat :=
  m.map Prod.fst

/-- Key-set model of a Go map whose values are list-node handles:
`m[x] = node` only ever stores the unique node holding `x`. -/
def sAdd (s : List Nat) (x : Nat) : List Nat :=
  x :: s.filter fun y => y != x

/-- Go `delete(m, x)` on a key-set-modelled map. -/
def sDel (s : List Nat) (x : Nat) : List Nat :=
  s.filter fun y => y != x

namespace EHT

/-! ## Extendible hash table (`extendiblehashtable.go`, `bucket/bucket.go`) -/

/-- A Go string, as its byte sequence. -/
abbrev Key := List Nat

/-- helper.Hash32: one FNV-1 step, 32-bit arithmetic (`hash *= prime; hash ^= byte`). -/
def hash32Step (h b : Nat) : Nat :=
  (h * 16777619 % 2 ^ 32) ^^^ (b % 256)

/-- helper.Hash32: FNV-1 over the bytes of the key, offset basis 2166136261. -/
def Hash32 (key : Key) : Nat :=
  key.foldl hash32Step 2166136261

/-- bucket.Bucket: capacity, local depth, and the ordered entry list. -/
structure Bucket (V : Type) where
  size : Nat
  depth : Nat
  items : List (Key × V)
deriving Repr, DecidableEq

/-- bucket.NewBucket. -/
def NewBucket (V : Type) (size depth : Nat) : Bucket V :=
  { size := size, depth := depth, items := [] }

/-- Scan of Bucket.Find over the entry list. -/
def bucketFind {V : Type} : List (Key × V) → Key → Option V
  | [], _ => none
  | e :: rest, k => if e.1 = k then some e.2 else bucketFind rest k

/-- The update performed by Bucket.Insert on an existing key: the first
entry with that key gets the new value. -/
def bucketUpdate {V : Type} : List (Key × V) → Key → V → List (Key × V)
  | [], _, _ => []
  | e :: rest, k, v => if e.1 = k then (k, v) :: rest else e :: bucketUpdate rest k v

/-- Scan of Bucket.Remove: delete the first entry with the key, report whether
one was found via `Option`. -/
def bucketRemove {V : Type} : List (Key × V) → Key → Option (List (Key × V))
  | [], _ => none
  | e :: rest, k =>
    if e.1 = k then some rest else (bucketRemove rest k).map (e :: ·)

/-- Bucket.Insert: update an existing key, else reject when full
(Bucket.IsFull is `size == len(list)`), else append. -/
def Bucket.insert {V : Type} (b : Bucket V) (k : Key) (v : V) : Option (Bucket V) :=
  if (bucketFind b.items k).isSome then
    some { b with items := bucketUpdate b.items k v }
  else if b.size = b.items.length then
    none
  else
    some { b with items := b.items ++ [(k, v)] }

/-- ExtendibleHashTable.  `buckets` is the arena of all allocated buckets;
`dir` stores arena indices (the Go bucket pointers). -/
structure ExtendibleHashTable (V : Type) where
  globalDepth : Nat
  bucketSize : Nat
  numBuckets : Nat
  buckets : List (Bucket V)
  dir : List Nat
deriving Repr, DecidableEq

/-- NewExtendibleHashTable: one empty bucket of depth 0, directory [that bucket]. -/
def NewExtendibleHashTable (V : Type) (bucketSize : Nat) : ExtendibleHashTable V :=
  { globalDepth := 0, bucketSize := bucketSize, numBuckets := 1,
    buckets := [NewBucket V bucketSize 0], dir := [0] }

/-- IndexOf: `Hash32(key) & uint32((1 << globalDepth) - 1)`.  The `uint32`
conversion truncates the mask to its low 32 bits. -/
def IndexOf (globalDepth : Nat) (key : Key) : Nat :=
  Nat.land (Hash32 key) ((2 ^ globalDepth - 1) % 2 ^ 32)

/-- Find: index into the directory and delegate to the bucket.
`none` from the directory or arena lookup models the Go index panic,
which never fires on reachable states. -/
def Find {V : Type} (t : ExtendibleHashTable V) (key : Key) : Option V := do
  let bid ← t.dir.get? (IndexOf t.globalDepth key)
  let b ← t.buckets.get? bid
  bucketFind b.items key

/-- Remove: index into the directory and delegate to the bucket. -/
def Remove {V : Type} (t : ExtendibleHashTable V) (key : Key) :
    Option (Bool × ExtendibleHashTable V) := do
  let bid ← t.dir.get? (IndexOf t.globalDepth key)
  let b ← t.buckets.get? bid
  match bucketRemove b.items key with
  | some items =>
    pure (true, { t with buckets := t.buckets.set bid { b with items := items } })
  | none => pure (false, t)

/-- The directory-doubling loop of Insert:
`for i := 0; i < len(e.dir); i++ { e.dir = append(e.dir, e.dir[i]) }`.
The bound `len(e.dir)` is re-evaluated every iteration while the loop itself
appends, hence the fuel; `none` is fuel exhaustion. -/
def doubleDir : Nat → Nat → List Nat → Option (List Nat)
  | 0, _, _ => none
  | fuel + 1, i, dir =>
    if i < dir.length then doubleDir fuel (i + 1) (dir ++ [dir.getD i 0]) else some dir

/-- One reinsertion of the redistribution loop: the boolean result of the
inner Insert is discarded by the Go code, so a full target bucket silently
drops the entry. -/
def reinsertEntry {V : Type} (t : ExtendibleHashTable V) (e : Key × V) :
    Option (ExtendibleHashTable V) := do
  let bid ← t.dir.get? (IndexOf t.globalDepth e.1)
  let b ← t.buckets.get? bid
  match b.insert e.1 e.2 with
  | some b2 => pure { t with buckets := t.buckets.set bid b2 }
  | none => pure t

/-- One iteration of the split loop body of Insert (lines 63 to 98): double
the directory when the local depth reaches the global depth, bump the target
bucket depth, allocate both halves, redistribute directory pointers below
`uint32(len(e.dir))`, and reinsert the target entries. -/
def splitStep {V : Type} (fuel : Nat) (t : ExtendibleHashTable V) (key : Key) :
    Option (ExtendibleHashTable V) := do
  let bid0 ← t.dir.get? (IndexOf t.globalDepth key)
  let b0 ← t.buckets.get? bid0
  let t1 ←
    if b0.depth = t.globalDepth then
      (doubleDir fuel 0 t.dir).map fun d =>
        { t with globalDepth := t.globalDepth + 1, dir := d }
    else
      some t
  let tid ← t1.dir.get? (IndexOf t1.globalDepth key)
  let target ← t1.buckets.get? tid
  let newDepth := target.depth + 1
  let bks0 := t1.buckets.set tid { target with depth := newDepth }
  let id0 := bks0.length
  let id1 := bks0.length + 1
  let bks := bks0 ++ [NewBucket V t1.bucketSize newDepth, NewBucket V t1.bucketSize newDepth]
  let mask := 2 ^ (newDepth - 1) % 2 ^ 32
  let bound := t1.dir.length % 2 ^ 32
  let dir2 := t1.dir.mapIdx fun i b =>
    if i < bound then
      (if b = tid then (if Nat.land i mask = 0 then id0 else id1) else b)
    else b
  let t2 := { t1 with numBuckets := t1.numBuckets + 1, buckets := bks, dir := dir2 }
  target.items.foldlM reinsertEntry t2

/-- Insert: retry-and-split loop.  Each call is one evaluation of the loop
condition (the bucket-level insert) followed, on rejection, by one split
iteration.  `none` is fuel exhaustion or a panic. -/
def insertFuel {V : Type} : Nat → ExtendibleHashTable V → Key → V →
    Option (ExtendibleHashTable V)
  | 0, _, _, _ => none
  | fuel + 1, t, key, value => do
    let bid ← t.dir.get? (IndexOf t.globalDepth key)
    let b ← t.buckets.get? bid
    match b.insert key value with
    | some b2 => pure { t with buckets := t.buckets.set bid b2 }
    | none => do
      let t2 ← splitStep fuel t key
      insertFuel fuel t2 key value

/-- States reachable from a fresh table (bucketSize at least 1) by completed
Insert and Remove calls; Find does not change the state. -/
inductive ReachT {V : Type} : ExtendibleHashTable V → Prop
  | base (bucketSize : Nat) (h : 1 ≤ bucketSize) :
      ReachT (NewExtendibleHashTable V bucketSize)
  | insert {t t2 : ExtendibleHashTable V} {key : Key} {value : V} {fuel : Nat} :
      ReachT t → insertFuel fuel t key value = some t2 → ReachT t2
  | remove {t t2 : ExtendibleHashTable V} {key : Key} {b : Bool} :
      ReachT t → Remove t key = some (b, t2) → ReachT t2

/-- The directory structural invariant of the specification: directory
length is `2 ^ globalDepth`, every slot references an allocated bucket whose
local depth is bounded by the global depth, and two slots referencing the
same bucket agree on their low `localDepth` bits. -/
def DirInvariant {V : Type} (t : ExtendibleHashTable V) : Prop :=
  t.dir.length = 2 ^ t.globalDepth ∧
  (∀ i b, t.dir.get? i = some b →
    ∃ bk, t.buckets.get? b = some bk ∧ bk.depth ≤ t.globalDepth) ∧
  (∀ i j b bk, t.dir.get? i = some b → t.dir.get? j = some b →
    t.buckets.get? b = some bk → i % 2 ^ bk.depth = j % 2 ^ bk.depth)

/-! ## Hash table: the shape of reachable states

Any split iteration of the cited Insert starts, from the initial global
depth 0, with a directory doubling whose loop bound `len(e.dir)` grows with
the loop, so no split iteration ever completes.  Consequently every
reachable state keeps global depth 0 and the single initial bucket. -/

def TableShape {V : Type} (t : ExtendibleHashTable V) : Prop :=
  t.globalDepth = 0 ∧ t.numBuckets = 1 ∧ t.dir = [0] ∧
  ∃ b : Bucket V, t.buckets = [b] ∧ b.depth = 0

/-- A table with bucketSize 1 holding the single key `[97]`, obtained by one
completed Insert on a fresh table. -/
def tableA : ExtendibleHashTable Nat :=
  (insertFuel 1 (NewExtendibleHashTable Nat 1) [97] 10).getD
    (NewExtendibleHashTable Nat 1)

/-- Divergence of an Insert call: no amount of fuel completes it. -/
def insertDiverges {V : Type} (t : ExtendibleHashTable V) (k : Key) (v : V) : Prop :=
  ∀ fuel, insertFuel fuel t k v = none

end EHT

namespace LRUK

/-! ## LRU-K replacer (package `lruk`, FrameIdT version) -/

/-- FrameIdT.  Modelled from the spec: an unsigned integer, so `Nat`
(the `define` package is not among the sources). -/
abbrev FrameId := Nat

/-- LRUKReplacer.  Lists have front = head; the node-handle maps
`historyMap`/`cacheMap` are modelled by their key sets. -/
structure LRUKReplacer where
  currSize : Nat
  replacerSize : Nat
  k : Nat
  historyList : List FrameId
  historyMap : List FrameId
  cacheList : List FrameId
  cacheMap : List FrameId
  accessCount : List (FrameId × Nat)
  isEvictable : List (FrameId × Bool)
deriving Repr, DecidableEq

/-- NewLRUKReplacer. -/
def NewLRUKReplacer (numFrames k : Nat) : LRUKReplacer :=
  { currSize := 0, replacerSize := numFrames, k := k,
    historyList := [], historyMap := [], cacheList := [], cacheMap := [],
    accessCount := [], isEvictable := [] }

/-- Reading `isEvictable[f]`: a missing key yields false (the Go zero value). -/
def evGetB (m : List (FrameId × Bool)) (x : FrameId) : Bool :=
  (mget m x).getD false

/-- Reading `accessCount[f]`: a missing key yields 0 (the Go zero value). -/
def acGetN (m : List (FrameId × Nat)) (x : FrameId) : Nat :=
  (mget m x).getD 0

/-- checkOverstep: panic exactly when `frameId > replacerSize`. -/
def checkOverstep (r : LRUKReplacer) (frameId : FrameId) : Bool :=
  decide (r.replacerSize < frameId)

/-- clearFrame: drop the two per-frame map entries and decrement currSize
(SizeT is unsigned; on reachable states currSize is positive here). -/
def clearFrame (r : LRUKReplacer) (frameId : FrameId) : LRUKReplacer :=
  { r with accessCount := mdel r.accessCount frameId,
           isEvictable := mdel r.isEvictable frameId,
           currSize := r.currSize - 1 }

/-- RecordAccess.  The graduation branch (`count == k`) removes the history
node through the unguarded handle `historyMap[frameId]`; when the key is
missing the handle is nil and the removal dereferences it, a fatal runtime
failure modelled as `none`.  The other two branches guard the lookup. -/
def RecordAccess (r : LRUKReplacer) (frameId : FrameId) : Option LRUKReplacer :=
  if checkOverstep r frameId then none
  else
    let cnt := acGetN r.accessCount frameId + 1
    let ac := mset r.accessCount frameId cnt
    if cnt = r.k then
      if frameId ∈ r.historyMap then
        some { r with accessCount := ac,
                      historyList := r.historyList.erase frameId,
                      historyMap := sDel r.historyMap frameId,
                      cacheList := frameId :: r.cacheList,
                      cacheMap := sAdd r.cacheMap frameId }
      else none
    else if r.k < cnt then
      some { r with accessCount := ac,
                    cacheList := frameId ::
                      (if frameId ∈ r.cacheMap then r.cacheList.erase frameId
                       else r.cacheList),
                    cacheMap := sAdd r.cacheMap frameId }
    else
      some { r with accessCount := ac,
                    historyList := frameId ::
                      (if frameId ∈ r.historyMap then r.historyList.erase frameId
                       else r.historyList),
                    historyMap := sAdd r.historyMap frameId }

/-- SetEvictable: silent return on an unknown frame, otherwise adjust
currSize by one exactly when the flag changes and store the flag. -/
def SetEvictable (r : LRUKReplacer) (frameId : FrameId) (isEvict : Bool) :
    Option LRUKReplacer :=
  if checkOverstep r frameId then none
  else if (mget r.accessCount frameId).isNone then some r
  else
    let sizeChange := if isEvict ≠ evGetB r.isEvictable frameId then 1 else 0
    some { r with
           currSize := if isEvict then r.currSize + sizeChange
                       else r.currSize - sizeChange,
           isEvictable := mset r.isEvictable frameId isEvict }

/-- The backward scan of an eviction loop: first evictable frame starting
from the back of the list. -/
def backVictim (l : List FrameId) (ev : List (FrameId × Bool)) : Option FrameId :=
  l.reverse.find? fun x => evGetB ev x

/-- Removing the node found by the backward scan (the first occurrence seen
from the back). -/
def removeBackNode (l : List FrameId) (x : FrameId) : List FrameId :=
  (l.reverse.erase x).reverse

/-- Evict: nothing when currSize is 0; otherwise scan the history list back
to front for an evictable frame, then the cache list; on a hit remove the
node, delete the map entry and clear the per-frame state.  The Go function
returns `(0, false)` on failure; the `Option` models the boolean. -/
def Evict (r : LRUKReplacer) : Option FrameId × LRUKReplacer :=
  if r.currSize = 0 then (none, r)
  else
    match backVictim r.historyList r.isEvictable with
    | some fid =>
      (some fid,
       clearFrame { r with historyList := removeBackNode r.historyList fid,
                           historyMap := sDel r.historyMap fid } fid)
    | none =>
      match backVictim r.cacheList r.isEvictable with
      | some fid =>
        (some fid,
         clearFrame { r with cacheList := removeBackNode r.cacheList fid,
                             cacheMap := sDel r.cacheMap fid } fid)
      | none => (none, r)

/-- Remove: silent on an unknown frame, fatal on a non-evictable one, else
delete from the cache side when `accessCount >= k` and from the history side
otherwise.  The node handle `cacheMap[frameId]` (resp. history) is
unguarded, so a missing key is the nil-handle fatal failure. -/
def Remove (r : LRUKReplacer) (frameId : FrameId) : Option LRUKReplacer :=
  if checkOverstep r frameId then none
  else if (mget r.accessCount frameId).isNone then some r
  else if evGetB r.isEvictable frameId = false then none
  else if r.k ≤ acGetN r.accessCount frameId then
    if frameId ∈ r.cacheMap then
      some (clearFrame { r with cacheList := r.cacheList.erase frameId,
                                cacheMap := sDel r.cacheMap frameId } frameId)
    else none
  else
    if frameId ∈ r.historyMap then
      some (clearFrame { r with historyList := r.historyList.erase frameId,
                                historyMap := sDel r.historyMap frameId } frameId)
    else none

/-- Size. -/
def Size (r : LRUKReplacer) : Nat :=
  r.currSize

/-- Replacer states reachable from a fresh replacer by non-aborting
RecordAccess, SetEvictable, Evict and Remove calls (Size is read-only). -/
inductive ReachR : LRUKReplacer → Prop
  | base (numFrames k : Nat) : ReachR (NewLRUKReplacer numFrames k)
  | recordAccess {r r2 : LRUKReplacer} {fid : FrameId} :
      ReachR r → RecordAccess r fid = some r2 → ReachR r2
  | setEvictable {r r2 : LRUKReplacer} {fid : FrameId} {b : Bool} :
      ReachR r → SetEvictable r fid b = some r2 → ReachR r2
  | evict {r : LRUKReplacer} : ReachR r → ReachR (Evict r).2
  | remove {r r2 : LRUKReplacer} {fid : FrameId} :
      ReachR r → Remove r fid = some r2 → ReachR r2

/-- Count of evictable tracked frames, as a function of the two maps. -/
def countEv (ac : List (Nat × Nat)) (ev : List (Nat × Bool)) : Nat :=
  ((mkeys ac).filter fun x => evGetB ev x).length

/-- The invariant of reachable replacer states: both lists are duplicate
free, each node-handle map holds exactly the frames of its list, history
frames have access count strictly below k (and positive), cache frames have
count at least k, every tracked frame is in one of the lists, evictable
flags exist only for tracked frames, and currSize counts the tracked
evictable frames. -/
structure Inv (r : LRUKReplacer) : Prop where
  hNodup : r.historyList.Nodup
  cNodup : r.cacheList.Nodup
  hMap : ∀ x, x ∈ r.historyMap ↔ x ∈ r.historyList
  cMap : ∀ x, x ∈ r.cacheMap ↔ x ∈ r.cacheList
  hCount : ∀ x ∈ r.historyList, ∃ c, mget r.accessCount x = some c ∧ 0 < c ∧ c < r.k
  cCount : ∀ x ∈ r.cacheList, ∃ c, mget r.accessCount x = some c ∧ r.k ≤ c
  tracked : ∀ x, (mget r.accessCount x).isSome → x ∈ r.historyList ∨ x ∈ r.cacheList
  evDom : ∀ x, (mget r.isEvictable x).isSome → (mget r.accessCount x).isSome
  acKeys : (mkeys r.accessCount).Nodup
  size : r.currSize = countEv r.accessCount r.isEvictable

/-- Number of tracked frames (keys of accessCount) whose evictable flag is
set. -/
def countEvictable (r : LRUKReplacer) : Nat :=
  ((mkeys r.accessCount).filter fun x => evGetB r.isEvictable x).length

/-! ## Replacer: claim-facing definitions and concrete states -/

/-- The behaviour C3 ascribes to Evict on a single state. -/
def EvictSpec (r : LRUKReplacer) : Prop :=
  (r.currSize = 0 → Evict r = (none, r)) ∧
  (r.currSize ≠ 0 → ∃ fid r2, Evict r = (some fid, r2) ∧
    evGetB r.isEvictable fid = true ∧
    r2.currSize + 1 = r.currSize ∧
    fid ∉ r2.historyList ∧ fid ∉ r2.cacheList ∧
    fid ∉ r2.historyMap ∧ fid ∉ r2.cacheMap ∧
    mget r2.accessCount fid = none ∧ mget r2.isEvictable fid = none ∧
    (∀ hv, backVictim r.historyList r.isEvictable = some hv → fid = hv) ∧
    (backVictim r.historyList r.isEvictable = none →
      backVictim r.cacheList r.isEvictable = some fid))

/-- The behaviour C7 ascribes to Remove on a single state and frame. -/
def RemoveSpec (r : LRUKReplacer) (fid : FrameId) : Prop :=
  (mget r.accessCount fid = none → Remove r fid = some r) ∧
  (∀ c, mget r.accessCount fid = some c → evGetB r.isEvictable fid = false →
    Remove r fid = none) ∧
  (∀ c, mget r.accessCount fid = some c → evGetB r.isEvictable fid = true →
    ∃ r2, Remove r fid = some r2 ∧
      (r.k ≤ c → fid ∈ r.cacheList ∧ r2.cacheList = r.cacheList.erase fid ∧
        r2.historyList = r.historyList) ∧
      (c < r.k → fid ∈ r.historyList ∧ r2.historyList = r.historyList.erase fid ∧
        r2.cacheList = r.cacheList) ∧
      fid ∉ r2.historyMap ∧ fid ∉ r2.cacheMap ∧
      mget r2.accessCount fid = none ∧ mget r2.isEvictable fid = none ∧
      r2.currSize + 1 = r.currSize)

/-- Concrete replacer states used by the witnesses: capacity 7, k 2; access
frame 1 and make it evictable. -/
def wr0 : LRUKReplacer := NewLRUKReplacer 7 2

/-- State after RecordAccess(1) on wr0. -/
def wr1 : LRUKReplacer := (RecordAccess wr0 1).getD wr0

/-- State after SetEvictable(1, true) on wr1. -/
def wr2 : LRUKReplacer := (SetEvictable wr1 1 true).getD wr1

/-- Concrete replacer trace refuting C4: capacity 7, k 3. -/
def cx0 : LRUKReplacer := NewLRUKReplacer 7 3

/-- After RecordAccess(1). -/
def cx1 : LRUKReplacer := (RecordAccess cx0 1).getD cx0

/-- After RecordAccess(2). -/
def cx2 : LRUKReplacer := (RecordAccess cx1 2).getD cx1

/-- After the repeat RecordAccess(1): frame 1 has 2 accesses, still below k. -/
def cx3 : LRUKReplacer := (RecordAccess cx2 1).getD cx2

/-- After SetEvictable(1, true). -/
def cx4 : LRUKReplacer := (SetEvictable cx3 1 true).getD cx3

/-- After SetEvictable(2, true). -/
def cx5 : LRUKReplacer := (SetEvictable cx4 2 true).getD cx4

end LRUK

end HermesDB

namespace HermesDB.EHT

/-! ## Hash table: auxiliary lemmas -/

theorem indexOf_zero (key : Key) : IndexOf 0 key = 0 :=
  Nat.and_zero _

theorem get?_singleton {α : Type} {i : Nat} {a b : α}
    (h : ([a] : List α).get? i = some b) : i = 0 ∧ b = a := by
  cases i with
  | zero => simp at h; exact ⟨rfl, h.symm⟩
  | succ n => simp at h

theorem doubleDir_eq_none (fuel : Nat) :
    ∀ (i : Nat) (dir : List Nat), i < dir.length → doubleDir fuel i dir = none := by
  induction fuel with
  | zero => intro i dir _; rfl
  | succ fuel ih =>
    intro i dir h
    simp only [doubleDir, if_pos h]
    exact ih (i + 1) (dir ++ [dir.getD i 0]) (by simp; omega)

theorem Bucket.insert_depth {V : Type} {b b2 : Bucket V} {k : Key} {v : V}
    (h : b.insert k v = some b2) : b2.depth = b.depth := by
  unfold Bucket.insert at h
  split at h
  · cases h; rfl
  · split at h
    · cases h
    · cases h; rfl

theorem bucketFind_update {V : Type} (l : List (Key × V)) (k : Key) (v2 : V)
    (h : (bucketFind l k).isSome) : bucketFind (bucketUpdate l k v2) k = some v2 := by
  induction l with
  | nil => simp [bucketFind] at h
  | cons e rest ih =>
    by_cases he : e.1 = k
    · simp [bucketUpdate, he, bucketFind]
    · simp only [bucketFind, he, if_false, if_neg he] at h
      simp [bucketUpdate, he, bucketFind, ih h]

theorem bucketRemove_eq_none {V : Type} (l : List (Key × V)) (k : Key)
    (h : bucketFind l k = none) : bucketRemove l k = none := by
  induction l with
  | nil => rfl
  | cons e rest ih =>
    by_cases he : e.1 = k
    · simp [bucketFind, he] at h
    · simp only [bucketFind, if_neg he] at h
      simp [bucketRemove, if_neg he, ih h]

theorem lt_length_of_get?_eq_some {α : Type} {l : List α} {i : Nat} {a : α}
    (h : l.get? i = some a) : i < l.length := by
  rw [List.get?_eq_getElem?] at h
  exact (List.getElem?_eq_some.mp h).1

theorem get?_set_self {α : Type} (l : List α) (i : Nat) (a : α) (h : i < l.length) :
    (l.set i a).get? i = some a := by
  simp [List.get?_eq_getElem?, List.getElem?_set, h]

theorem insertFuel_shape {V : Type} {fuel : Nat} {t t2 : ExtendibleHashTable V}
    {k : Key} {v : V} (hs : TableShape t) (h : insertFuel fuel t k v = some t2) :
    TableShape t2 := by
  obtain ⟨hgd, hnb, hdir, b, hbk, hdep⟩ := hs
  cases fuel with
  | zero => exact absurd h (by simp [insertFuel])
  | succ fuel =>
    rw [insertFuel, hgd, hdir, hbk, indexOf_zero] at h
    simp only [bind, Option.bind, List.get?] at h
    cases hins : Bucket.insert b k v with
    | some b2 =>
      rw [hins] at h
      simp only [Option.pure_def, Option.some.injEq] at h
      subst h
      exact ⟨rfl, hnb, rfl, b2, rfl, (Bucket.insert_depth hins).trans hdep⟩
    | none =>
      rw [hins] at h
      have hsplit : splitStep fuel t k = none := by
        rw [splitStep, hgd, hdir, hbk, indexOf_zero]
        simp only [bind, Option.bind, List.get?]
        rw [hdep, if_pos rfl, doubleDir_eq_none fuel 0 [0] (by decide)]
        rfl
      rw [hsplit] at h
      exact Option.noConfusion h

theorem remove_shape {V : Type} {t t2 : ExtendibleHashTable V} {k : Key} {bl : Bool}
    (hs : TableShape t) (h : Remove t k = some (bl, t2)) : TableShape t2 := by
  obtain ⟨hgd, hnb, hdir, b, hbk, hdep⟩ := hs
  rw [Remove, hgd, hdir, hbk, indexOf_zero] at h
  simp only [bind, Option.bind, List.get?] at h
  cases hrem : bucketRemove b.items k with
  | some items =>
    rw [hrem] at h
    simp only [Option.pure_def, Option.some.injEq, Prod.mk.injEq] at h
    obtain ⟨-, h2⟩ := h
    subst h2
    exact ⟨rfl, hnb, rfl, { b with items := items }, rfl, hdep⟩
  | none =>
    rw [hrem] at h
    simp only [Option.pure_def, Option.some.injEq, Prod.mk.injEq] at h
    obtain ⟨-, h2⟩ := h
    subst h2
    exact ⟨hgd, hnb, hdir, b, hbk, hdep⟩

theorem reachT_shape {V : Type} {t : ExtendibleHashTable V} (h : ReachT t) :
    TableShape t := by
  induction h with
  | base bucketSize hb => exact ⟨rfl, rfl, rfl, NewBucket V bucketSize 0, rfl, rfl⟩
  | insert _ hstep ih => exact insertFuel_shape ih hstep
  | remove _ hstep ih => exact remove_shape ih hstep

end HermesDB.EHT

namespace HermesDB.EHT

/-! ## Hash table: claim theorems -/

theorem insertFuel_none_of_reject {V : Type} (fuel : Nat) (t : ExtendibleHashTable V)
    (k : Key) (v : V) (hs : TableShape t) (b : Bucket V) (hb : t.buckets = [b])
    (hrej : Bucket.insert b k v = none) : insertFuel fuel t k v = none := by
  obtain ⟨hgd, hnb, hdir, b0, hbk, hdep⟩ := hs
  have hb0 : b0 = b := by
    rw [hb] at hbk
    exact (List.cons.injEq .. ▸ hbk).1.symm
  subst hb0
  cases fuel with
  | zero => rfl
  | succ fuel =>
    rw [insertFuel, hgd, hdir, hb, indexOf_zero]
    simp only [bind, Option.bind, List.get?]
    rw [hrej]
    have hsplit : splitStep fuel t k = none := by
      rw [splitStep, hgd, hdir, hb, indexOf_zero]
      simp only [bind, Option.bind, List.get?]
      rw [hdep, if_pos rfl, doubleDir_eq_none fuel 0 [0] (by decide)]
      rfl
    rw [hsplit]

/-- C1: the claim states that with bucketSize at least 1 every Insert
terminates with the pair placed (Find succeeding afterwards).  The code
contradicts it and its own test: the directory-doubling loop of Insert
re-evaluates `len(e.dir)` while appending, so the first overflow that
requires doubling never terminates.  On the concrete table `tableA`
(bucketSize 1, one resident key), inserting a second distinct key diverges:
no fuel completes the call. -/
theorem C1_second_insert_diverges : insertDiverges tableA [98] 20 := by
  intro fuel
  exact insertFuel_none_of_reject fuel tableA [98] 20
    ⟨rfl, rfl, rfl, ⟨1, 0, [([97], 10)]⟩, rfl, rfl⟩
    ⟨1, 0, [([97], 10)]⟩ rfl (by decide)

/-- C2: every reachable table state satisfies the directory structural
invariant: directory length is `2 ^ globalDepth`, every slot holds an
allocated bucket with `localDepth` at most `globalDepth`, and slots sharing
a bucket agree on their low `localDepth` bits.  (Because no split iteration
of this Insert can complete, all reachable states keep global depth 0.) -/
theorem C2_directory_invariant {V : Type} (t : ExtendibleHashTable V)
    (h : ReachT t) : DirInvariant t := by
  obtain ⟨hgd, hnb, hdir, b, hbk, hdep⟩ := reachT_shape h
  refine ⟨?_, ?_, ?_⟩
  · rw [hdir, hgd]
    rfl
  · intro i bid hget
    rw [hdir] at hget
    obtain ⟨hi, hbid⟩ := get?_singleton hget
    subst hbid
    exact ⟨b, by rw [hbk]; rfl, by simp [hdep, hgd]⟩
  · intro i j bid bk hi hj hbkid
    rw [hdir] at hi hj
    obtain ⟨hi0, -⟩ := get?_singleton hi
    obtain ⟨hj0, -⟩ := get?_singleton hj
    subst hi0
    subst hj0
    rfl

theorem C2_witness : DirInvariant (NewExtendibleHashTable Nat 2) :=
  C2_directory_invariant _ (ReachT.base 2 (by decide))

/-- C8: inserting a key that is already present updates the stored value in
place: the insert completes with one unit of fuel beyond the attempt, the
following Find returns the new value, and numBuckets, globalDepth and the
directory are untouched (no split happens even if the bucket is full). -/
theorem C8_duplicate_insert {V : Type} (t : ExtendibleHashTable V) (k : Key)
    (v1 v2 : V) (fuel : Nat) (_ht : ReachT t) (hfind : Find t k = some v1) :
    ∃ t2, insertFuel (fuel + 1) t k v2 = some t2 ∧ Find t2 k = some v2 ∧
      t2.numBuckets = t.numBuckets ∧ t2.globalDepth = t.globalDepth ∧
      t2.dir = t.dir := by
  unfold Find at hfind
  simp only [bind, Option.bind_eq_some] at hfind
  obtain ⟨bid, hbid, bk, hbk, hfd⟩ := hfind
  refine ⟨{ t with buckets :=
      t.buckets.set bid { bk with items := bucketUpdate bk.items k v2 } }, ?_, ?_, rfl, rfl, rfl⟩
  · rw [insertFuel]
    simp only [bind, Option.bind, hbid, hbk]
    simp only [Bucket.insert, hfd, Option.isSome_some, if_true]
    rfl
  · unfold Find
    simp only [bind, Option.bind, hbid]
    rw [get?_set_self _ _ _ (lt_length_of_get?_eq_some hbk)]
    exact bucketFind_update bk.items k v2 (by simp [hfd])

theorem C8_witness :
    ∃ t2, insertFuel (0 + 1) tableA [97] 99 = some t2 ∧ Find t2 [97] = some 99 ∧
      t2.numBuckets = tableA.numBuckets ∧ t2.globalDepth = tableA.globalDepth ∧
      t2.dir = tableA.dir :=
  C8_duplicate_insert tableA [97] 10 99 0
    (@ReachT.insert Nat (NewExtendibleHashTable Nat 1) tableA [97] 10 1
      (ReachT.base 1 (by decide)) (by decide))
    (by decide)

/-- C10: removing a key that is absent from a reachable table returns false
and leaves the table exactly as it was. -/
theorem C10_remove_absent {V : Type} (t : ExtendibleHashTable V) (k : Key)
    (ht : ReachT t) (habs : Find t k = none) : Remove t k = some (false, t) := by
  obtain ⟨hgd, hnb, hdir, b, hbk, hdep⟩ := reachT_shape ht
  rw [Find, hgd, hdir, hbk, indexOf_zero] at habs
  simp only [bind, Option.bind, List.get?] at habs
  rw [Remove, hgd, hdir, hbk, indexOf_zero]
  simp only [bind, Option.bind, List.get?]
  rw [bucketRemove_eq_none b.items k habs]
  rfl

theorem C10_witness : Remove tableA [99] = some (false, tableA) :=
  C10_remove_absent tableA [99]
    (@ReachT.insert Nat (NewExtendibleHashTable Nat 1) tableA [97] 10 1
      (ReachT.base 1 (by decide)) (by decide))
    (by decide)

end HermesDB.EHT

namespace HermesDB

/-! ## Map model lemmas -/

theorem mget_mdel {α : Type} (m : List (Nat × α)) (x y : Nat) :
    mget (mdel m x) y = if y = x then none else mget m y := by
  induction m with
  | nil => simp [mdel, mget]
  | cons p rest ih =>
    by_cases hpx : p.1 = x
    · rw [show mdel (p :: rest) x = mdel rest x by simp [mdel, List.filter_cons, hpx]]
      rw [ih]
      by_cases hyx : y = x
      · simp [hyx]
      · simp [hyx, mget, show p.1 ≠ y from fun hc => hyx (hc ▸ hpx.symm ▸ rfl)]
    · rw [show mdel (p :: rest) x = p :: mdel rest x by simp [mdel, List.filter_cons, hpx]]
      by_cases hpy : p.1 = y
      · have hyx : y ≠ x := fun hc => hpx (hpy.trans hc)
        simp [mget, hpy, hyx]
      · simp [mget, hpy, ih]

theorem mget_mset {α : Type} (m : List (Nat × α)) (x y : Nat) (v : α) :
    mget (mset m x v) y = if y = x then some v else mget m y := by
  by_cases hyx : y = x
  · simp [mset, mget, hyx]
  · rw [show mset m x v = (x, v) :: mdel m x from rfl]
    rw [show mget ((x, v) :: mdel m x) y = if x = y then some v else mget (mdel m x) y from rfl]
    rw [if_neg (fun hc => hyx hc.symm), mget_mdel, if_neg hyx, if_neg hyx]

theorem mem_mkeys {α : Type} (m : List (Nat × α)) (x : Nat) :
    x ∈ mkeys m ↔ (mget m x).isSome := by
  induction m with
  | nil => simp [mkeys, mget]
  | cons p rest ih =>
    by_cases hp : p.1 = x
    · simp [mkeys, mget, hp]
    · rw [show mget (p :: rest) x = mget rest x by simp [mget, hp]]
      rw [← ih]
      simp [mkeys, show x ≠ p.1 from fun hc => hp hc.symm]

theorem mkeys_mdel {α : Type} (m : List (Nat × α)) (x : Nat) :
    mkeys (mdel m x) = (mkeys m).filter (fun y => y != x) := by
  induction m with
  | nil => rfl
  | cons p rest ih =>
    by_cases hp : p.1 = x
    · rw [show mdel (p :: rest) x = mdel rest x by simp [mdel, List.filter_cons, hp]]
      rw [show mkeys (p :: rest) = p.1 :: mkeys rest from rfl]
      rw [List.filter_cons, ih]
      simp [hp]
    · rw [show mdel (p :: rest) x = p :: mdel rest x by simp [mdel, List.filter_cons, hp]]
      rw [show mkeys (p :: mdel rest x) = p.1 :: mkeys (mdel rest x) from rfl]
      rw [show mkeys (p :: rest) = p.1 :: mkeys rest from rfl]
      rw [List.filter_cons, ih]
      simp [hp]

theorem mkeys_mset {α : Type} (m : List (Nat × α)) (x : Nat) (v : α) :
    mkeys (mset m x v) = x :: (mkeys m).filter (fun y => y != x) := by
  rw [show mkeys (mset m x v) = x :: mkeys (mdel m x) from rfl, mkeys_mdel]

theorem nodup_mkeys_mdel {α : Type} (m : List (Nat × α)) (x : Nat)
    (h : (mkeys m).Nodup) : (mkeys (mdel m x)).Nodup := by
  rw [mkeys_mdel]
  exact h.filter _

theorem nodup_mkeys_mset {α : Type} (m : List (Nat × α)) (x : Nat) (v : α)
    (h : (mkeys m).Nodup) : (mkeys (mset m x v)).Nodup := by
  rw [mkeys_mset]
  refine List.nodup_cons.mpr ⟨?_, h.filter _⟩
  intro hx
  simpa using (List.mem_filter.mp hx).2

theorem mem_sDel (s : List Nat) (x y : Nat) : y ∈ sDel s x ↔ y ∈ s ∧ y ≠ x := by
  simp [sDel, List.mem_filter]

theorem mem_sAdd (s : List Nat) (x y : Nat) : y ∈ sAdd s x ↔ y = x ∨ y ∈ s := by
  by_cases hyx : y = x
  · simp [sAdd, hyx]
  · simp [sAdd, List.mem_filter, hyx]

/-! ## Counting lemmas -/

theorem length_filter_perm {l₁ l₂ : List Nat} (h : List.Perm l₁ l₂) (p : Nat → Bool) :
    (l₁.filter p).length = (l₂.filter p).length :=
  (h.filter p).length_eq

theorem filter_ne_of_not_mem (l : List Nat) (x : Nat) (h : x ∉ l) :
    l.filter (fun y => y != x) = l := by
  apply List.filter_eq_self.mpr
  intro a ha
  simp
  exact fun heq => h (heq ▸ ha)

theorem length_filter_split (l : List Nat) (x : Nat) (p : Nat → Bool)
    (hx : x ∈ l) (hnd : l.Nodup) :
    (l.filter p).length =
      (if p x then 1 else 0) + ((l.filter (fun y => y != x)).filter p).length := by
  rw [length_filter_perm (List.perm_cons_erase hx) p, List.filter_cons,
    hnd.erase_eq_filter x]
  by_cases hp : p x <;> simp [hp] <;> omega

end HermesDB

namespace HermesDB.LRUK

/-! ## Replacer: counting lemmas -/

theorem countEvictable_eq (r : LRUKReplacer) :
    countEvictable r = countEv r.accessCount r.isEvictable := rfl

theorem evGetB_mdel_ne (ev : List (Nat × Bool)) (x y : Nat) (h : y ≠ x) :
    evGetB (mdel ev x) y = evGetB ev y := by
  simp [evGetB, mget_mdel, h]

theorem evGetB_mset (ev : List (Nat × Bool)) (x y : Nat) (v : Bool) :
    evGetB (mset ev x v) y = if y = x then v else evGetB ev y := by
  by_cases h : y = x <;> simp [evGetB, mget_mset, h]

theorem countEv_mset (ac : List (Nat × Nat)) (ev : List (Nat × Bool)) (x v : Nat)
    (hnd : (mkeys ac).Nodup) :
    countEv (mset ac x v) ev =
      (if (mget ac x).isSome then 0 else if evGetB ev x then 1 else 0) +
        countEv ac ev := by
  simp only [countEv, mkeys_mset, List.filter_cons]
  by_cases hx : (mget ac x).isSome
  · have hmem : x ∈ mkeys ac := (mem_mkeys ac x).mpr hx
    rw [length_filter_split (mkeys ac) x _ hmem hnd]
    by_cases hev : evGetB ev x
    · simp only [hx, hev, if_true, List.length_cons]
      omega
    · simp only [hx, hev, if_false, Bool.false_eq_true, if_true]
      omega
  · have hmem : x ∉ mkeys ac := fun hc => hx ((mem_mkeys ac x).mp hc)
    rw [filter_ne_of_not_mem _ _ hmem]
    by_cases hev : evGetB ev x
    · simp only [hx, hev, if_true, if_false, Bool.false_eq_true, List.length_cons]
      omega
    · simp only [hx, hev, if_true, if_false, Bool.false_eq_true, List.length_cons]
      omega

theorem countEv_mdel (ac : List (Nat × Nat)) (ev : List (Nat × Bool)) (x : Nat)
    (hnd : (mkeys ac).Nodup) (hx : (mget ac x).isSome) :
    countEv ac ev =
      (if evGetB ev x then 1 else 0) + countEv (mdel ac x) (mdel ev x) := by
  have hmem : x ∈ mkeys ac := (mem_mkeys ac x).mpr hx
  rw [countEv, length_filter_split (mkeys ac) x _ hmem hnd]
  congr 1
  have hcong : ∀ y ∈ (mkeys ac).filter (fun y => y != x),
      evGetB (mdel ev x) y = evGetB ev y := by
    intro y hy
    have hne : y ≠ x := by simpa using (List.mem_filter.mp hy).2
    exact evGetB_mdel_ne ev x y hne
  rw [countEv, mkeys_mdel, List.filter_congr hcong]

theorem countEv_mset_flag (ac : List (Nat × Nat)) (ev : List (Nat × Bool)) (x : Nat)
    (v : Bool) (hnd : (mkeys ac).Nodup) (hx : (mget ac x).isSome) :
    countEv ac (mset ev x v) + (if evGetB ev x then 1 else 0) =
      countEv ac ev + (if v then 1 else 0) := by
  have hmem : x ∈ mkeys ac := (mem_mkeys ac x).mpr hx
  simp only [countEv]
  rw [length_filter_split (mkeys ac) x _ hmem hnd,
    length_filter_split (mkeys ac) x (fun y => evGetB ev y) hmem hnd]
  have hx2 : evGetB (mset ev x v) x = v := by simp [evGetB_mset]
  have hcong : ∀ y ∈ (mkeys ac).filter (fun y => y != x),
      evGetB (mset ev x v) y = evGetB ev y := by
    intro y hy
    have hne : y ≠ x := by simpa using (List.mem_filter.mp hy).2
    simp [evGetB_mset, hne]
  rw [List.filter_congr hcong, hx2]
  by_cases hev : evGetB ev x <;> by_cases hv : v <;> simp [hev, hv] <;> omega

theorem exists_evictable_of_pos (ac : List (Nat × Nat)) (ev : List (Nat × Bool))
    (h : 0 < countEv ac ev) :
    ∃ x, (mget ac x).isSome ∧ evGetB ev x = true := by
  rw [countEv] at h
  rcases hne : (mkeys ac).filter (fun x => evGetB ev x) with - | ⟨y, tl⟩
  · rw [hne] at h
    simp at h
  · have hy : y ∈ (mkeys ac).filter (fun x => evGetB ev x) := by
      rw [hne]
      exact List.mem_cons_self y tl
    obtain ⟨hmem, hev⟩ := List.mem_filter.mp hy
    exact ⟨y, (mem_mkeys ac y).mp hmem, hev⟩

/-! ## Replacer: the inductive invariant -/

theorem Inv.disj {r : LRUKReplacer} (hi : Inv r) {x : FrameId}
    (hh : x ∈ r.historyList) (hc : x ∈ r.cacheList) : False := by
  obtain ⟨c, hgc, -, hlt⟩ := hi.hCount x hh
  obtain ⟨c2, hgc2, hge⟩ := hi.cCount x hc
  rw [hgc] at hgc2
  have := Option.some.inj hgc2
  omega

theorem inv_new (numFrames k : Nat) : Inv (NewLRUKReplacer numFrames k) := by
  refine ⟨?_, ?_, ?_, ?_, ?_, ?_, ?_, ?_, ?_, ?_⟩ <;>
    simp [NewLRUKReplacer, mget, mkeys, countEv]

theorem inv_setEvictable {r r2 : LRUKReplacer} {fid : FrameId} {b : Bool}
    (hi : Inv r) (h : SetEvictable r fid b = some r2) : Inv r2 := by
  simp only [SetEvictable] at h
  split at h
  next => exact absurd h (by simp)
  next hover =>
    split at h
    next htrk =>
      have h2 := Option.some.inj h
      subst h2
      exact hi
    next htrk =>
      have hx : (mget r.accessCount fid).isSome := by
        rcases hmm : mget r.accessCount fid with - | c
        · rw [hmm] at htrk
          simp at htrk
        · simp
      have h2 := Option.some.inj h
      subst h2
      refine ⟨hi.hNodup, hi.cNodup, hi.hMap, hi.cMap, hi.hCount, hi.cCount,
        hi.tracked, ?_, hi.acKeys, ?_⟩
      · intro x hev
        by_cases hxf : x = fid
        · subst hxf
          exact hx
        · rw [mget_mset _ _ _ _, if_neg hxf] at hev
          exact hi.evDom x hev
      · have hkey := countEv_mset_flag r.accessCount r.isEvictable fid b hi.acKeys hx
        have hsz := hi.size
        by_cases hev : evGetB r.isEvictable fid <;> by_cases hb : b <;>
          simp [hev, hb] at hkey ⊢ <;> omega

end HermesDB.LRUK

namespace HermesDB.LRUK

/-! ## Replacer: invariant preservation for RecordAccess -/

theorem inv_recordAccess {r r2 : LRUKReplacer} {fid : FrameId}
    (hi : Inv r) (h : RecordAccess r fid = some r2) : Inv r2 := by
  simp only [RecordAccess] at h
  split at h
  next => exact absurd h (by simp)
  next hover =>
  split at h
  next hk =>
    split at h
    next hmem =>
      have h2 := Option.some.inj h
      subst h2
      have hfidh : fid ∈ r.historyList := (hi.hMap fid).mp hmem
      obtain ⟨c, hc, hcpos, hclt⟩ := hi.hCount fid hfidh
      have hfidnc : fid ∉ r.cacheList := fun hc2 => hi.disj hfidh hc2
      have hac : (mget r.accessCount fid).isSome := by simp [hc]
      refine ⟨hi.hNodup.erase fid, List.nodup_cons.mpr ⟨hfidnc, hi.cNodup⟩,
        ?_, ?_, ?_, ?_, ?_, ?_, nodup_mkeys_mset _ _ _ hi.acKeys, ?_⟩
      · intro x
        rw [mem_sDel, hi.hMap x, hi.hNodup.mem_erase_iff]
        tauto
      · intro x
        rw [mem_sAdd, hi.cMap x, List.mem_cons]
      · intro x hx
        obtain ⟨hxne, hxl⟩ := hi.hNodup.mem_erase_iff.mp hx
        obtain ⟨c2, hc2, h1, h2⟩ := hi.hCount x hxl
        exact ⟨c2, by rw [mget_mset, if_neg hxne]; exact hc2, h1, h2⟩
      · intro x hx
        rcases List.mem_cons.mp hx with hxf | hxc
        · subst hxf
          exact ⟨acGetN r.accessCount x + 1, by rw [mget_mset, if_pos rfl],
            le_of_eq hk.symm⟩
        · have hxne : x ≠ fid := fun he => hfidnc (he ▸ hxc)
          obtain ⟨c2, hc2, hge⟩ := hi.cCount x hxc
          exact ⟨c2, by rw [mget_mset, if_neg hxne]; exact hc2, hge⟩
      · intro x hx
        by_cases hxf : x = fid
        · subst hxf
          right
          exact List.mem_cons_self ..
        · rw [mget_mset, if_neg hxf] at hx
          rcases hi.tracked x hx with hh | hcx
          · left
            exact (List.mem_erase_of_ne hxf).mpr hh
          · right
            exact List.mem_cons_of_mem _ hcx
      · intro x hx
        by_cases hxf : x = fid
        · subst hxf
          rw [mget_mset, if_pos rfl]
          rfl
        · rw [mget_mset, if_neg hxf]
          exact hi.evDom x hx
      · rw [countEv_mset _ _ _ _ hi.acKeys]
        simpa [hac] using hi.size
    next hmem => exact absurd h (by simp)
  next hk =>
  have hzero : ∀ cnt, countEv (mset r.accessCount fid cnt) r.isEvictable =
      countEv r.accessCount r.isEvictable := by
    intro cnt
    rw [countEv_mset _ _ _ _ hi.acKeys]
    by_cases hac : (mget r.accessCount fid).isSome
    · simp [hac]
    · have hev : evGetB r.isEvictable fid = false := by
        rcases hee : mget r.isEvictable fid with - | bb
        · simp [evGetB, hee]
        · exact absurd (hi.evDom fid (by simp [hee])) hac
      simp [hac, hev]
  split at h
  next hgt =>
    have h2 := Option.some.inj h
    subst h2
    have hfidnh : fid ∉ r.historyList := by
      intro hh
      obtain ⟨c, hc, h1, h2⟩ := hi.hCount fid hh
      have hgc : acGetN r.accessCount fid = c := by simp [acGetN, hc]
      omega
    have hfid_notE : fid ∉ (if fid ∈ r.cacheMap then r.cacheList.erase fid
        else r.cacheList) := by
      by_cases hcm : fid ∈ r.cacheMap
      · simp only [hcm, if_true]
        intro hc2
        exact absurd rfl (hi.cNodup.mem_erase_iff.mp hc2).1
      · simp only [hcm, if_false]
        exact fun hc2 => hcm ((hi.cMap fid).mpr hc2)
    have hndE : (if fid ∈ r.cacheMap then r.cacheList.erase fid
        else r.cacheList).Nodup := by
      by_cases hcm : fid ∈ r.cacheMap
      · simp only [hcm, if_true]
        exact hi.cNodup.erase fid
      · simp only [hcm, if_false]
        exact hi.cNodup
    have hmemE : ∀ x, x ≠ fid →
        (x ∈ (if fid ∈ r.cacheMap then r.cacheList.erase fid else r.cacheList) ↔
          x ∈ r.cacheList) := by
      intro x hxf
      by_cases hcm : fid ∈ r.cacheMap
      · simp only [hcm, if_true]
        exact List.mem_erase_of_ne hxf
      · simp only [hcm, if_false]
    have hsub : ∀ x, x ∈ (if fid ∈ r.cacheMap then r.cacheList.erase fid
        else r.cacheList) → x ∈ r.cacheList := by
      intro x hx
      by_cases hcm : fid ∈ r.cacheMap
      · rw [if_pos hcm] at hx
        exact List.mem_of_mem_erase hx
      · rwa [if_neg hcm] at hx
    refine ⟨hi.hNodup, List.nodup_cons.mpr ⟨hfid_notE, hndE⟩, hi.hMap,
      ?_, ?_, ?_, ?_, ?_, nodup_mkeys_mset _ _ _ hi.acKeys, ?_⟩
    · intro x
      rw [mem_sAdd, List.mem_cons]
      by_cases hxf : x = fid
      · simp [hxf]
      · simp only [hxf, false_or]
        rw [hi.cMap x, hmemE x hxf]
    · intro x hx
      have hxf : x ≠ fid := fun he => hfidnh (he ▸ hx)
      obtain ⟨c2, hc2, h1, h2⟩ := hi.hCount x hx
      exact ⟨c2, by rw [mget_mset, if_neg hxf]; exact hc2, h1, h2⟩
    · intro x hx
      rcases List.mem_cons.mp hx with hxf | hxc
      · subst hxf
        refine ⟨acGetN r.accessCount x + 1, by rw [mget_mset, if_pos rfl], ?_⟩
        show r.k ≤ acGetN r.accessCount x + 1
        omega
      · have hxf : x ≠ fid := fun he => hfid_notE (he ▸ hxc)
        obtain ⟨c2, hc2, hge⟩ := hi.cCount x (hsub x hxc)
        exact ⟨c2, by rw [mget_mset, if_neg hxf]; exact hc2, hge⟩
    · intro x hx
      by_cases hxf : x = fid
      · subst hxf
        right
        exact List.mem_cons_self ..
      · rw [mget_mset, if_neg hxf] at hx
        rcases hi.tracked x hx with hh | hcx
        · left
          exact hh
        · right
          exact List.mem_cons_of_mem _ ((hmemE x hxf).mpr hcx)
    · intro x hx
      by_cases hxf : x = fid
      · subst hxf
        rw [mget_mset, if_pos rfl]
        rfl
      · rw [mget_mset, if_neg hxf]
        exact hi.evDom x hx
    · rw [hzero]
      exact hi.size
  next hgt =>
    have h2 := Option.some.inj h
    subst h2
    have hcnt_lt : acGetN r.accessCount fid + 1 < r.k := by omega
    have hfidnc : fid ∉ r.cacheList := by
      intro hc2
      obtain ⟨c, hc, hge⟩ := hi.cCount fid hc2
      have hgc : acGetN r.accessCount fid = c := by simp [acGetN, hc]
      omega
    have hfid_notE : fid ∉ (if fid ∈ r.historyMap then r.historyList.erase fid
        else r.historyList) := by
      by_cases hcm : fid ∈ r.historyMap
      · simp only [hcm, if_true]
        intro hc2
        exact absurd rfl (hi.hNodup.mem_erase_iff.mp hc2).1
      · simp only [hcm, if_false]
        exact fun hc2 => hcm ((hi.hMap fid).mpr hc2)
    have hndE : (if fid ∈ r.historyMap then r.historyList.erase fid
        else r.historyList).Nodup := by
      by_cases hcm : fid ∈ r.historyMap
      · simp only [hcm, if_true]
        exact hi.hNodup.erase fid
      · simp only [hcm, if_false]
        exact hi.hNodup
    have hmemE : ∀ x, x ≠ fid →
        (x ∈ (if fid ∈ r.historyMap then r.historyList.erase fid
          else r.historyList) ↔ x ∈ r.historyList) := by
      intro x hxf
      by_cases hcm : fid ∈ r.historyMap
      · simp only [hcm, if_true]
        exact List.mem_erase_of_ne hxf
      · simp only [hcm, if_false]
    have hsub : ∀ x, x ∈ (if fid ∈ r.historyMap then r.historyList.erase fid
        else r.historyList) → x ∈ r.historyList := by
      intro x hx
      by_cases hcm : fid ∈ r.historyMap
      · rw [if_pos hcm] at hx
        exact List.mem_of_mem_erase hx
      · rwa [if_neg hcm] at hx
    refine ⟨List.nodup_cons.mpr ⟨hfid_notE, hndE⟩, hi.cNodup,
      ?_, hi.cMap, ?_, ?_, ?_, ?_, nodup_mkeys_mset _ _ _ hi.acKeys, ?_⟩
    · intro x
      rw [mem_sAdd, List.mem_cons]
      by_cases hxf : x = fid
      · simp [hxf]
      · simp only [hxf, false_or]
        rw [hi.hMap x, hmemE x hxf]
    · intro x hx
      rcases List.mem_cons.mp hx with hxf | hxc
      · subst hxf
        exact ⟨acGetN r.accessCount x + 1, by rw [mget_mset, if_pos rfl],
          by omega, hcnt_lt⟩
      · have hxf : x ≠ fid := fun he => hfid_notE (he ▸ hxc)
        obtain ⟨c2, hc2, h1, h2⟩ := hi.hCount x (hsub x hxc)
        exact ⟨c2, by rw [mget_mset, if_neg hxf]; exact hc2, h1, h2⟩
    · intro x hx
      have hxf : x ≠ fid := fun he => hfidnc (he ▸ hx)
      obtain ⟨c2, hc2, hge⟩ := hi.cCount x hx
      exact ⟨c2, by rw [mget_mset, if_neg hxf]; exact hc2, hge⟩
    · intro x hx
      by_cases hxf : x = fid
      · subst hxf
        left
        exact List.mem_cons_self ..
      · rw [mget_mset, if_neg hxf] at hx
        rcases hi.tracked x hx with hh | hcx
        · left
          exact List.mem_cons_of_mem _ ((hmemE x hxf).mpr hh)
        · right
          exact hcx
    · intro x hx
      by_cases hxf : x = fid
      · subst hxf
        rw [mget_mset, if_pos rfl]
        rfl
      · rw [mget_mset, if_neg hxf]
        exact hi.evDom x hx
    · rw [hzero]
      exact hi.size

end HermesDB.LRUK

namespace HermesDB.LRUK

/-! ## Replacer: invariant preservation for Evict and Remove -/

theorem mem_removeBackNode {l : List Nat} {x : Nat} (hnd : l.Nodup) (y : Nat) :
    y ∈ removeBackNode l x ↔ y ≠ x ∧ y ∈ l := by
  rw [removeBackNode, List.mem_reverse, (List.nodup_reverse.mpr hnd).mem_erase_iff,
    List.mem_reverse]

theorem nodup_removeBackNode {l : List Nat} {x : Nat} (hnd : l.Nodup) :
    (removeBackNode l x).Nodup := by
  rw [removeBackNode]
  exact List.nodup_reverse.mpr ((List.nodup_reverse.mpr hnd).erase x)

theorem backVictim_mem {l : List Nat} {ev : List (Nat × Bool)} {x : Nat}
    (h : backVictim l ev = some x) : x ∈ l :=
  List.mem_reverse.mp (List.mem_of_find?_eq_some h)

theorem backVictim_evictable {l : List Nat} {ev : List (Nat × Bool)} {x : Nat}
    (h : backVictim l ev = some x) : evGetB ev x = true :=
  List.find?_some h

theorem backVictim_isSome {l : List Nat} {ev : List (Nat × Bool)} {x : Nat}
    (hx : x ∈ l) (hev : evGetB ev x = true) : (backVictim l ev).isSome :=
  List.find?_isSome.mpr ⟨x, List.mem_reverse.mpr hx, hev⟩

theorem inv_clear_history {r : LRUKReplacer} (hi : Inv r) (fid : FrameId)
    (hl2 : List Nat) (hmem : fid ∈ r.historyList) (hnd2 : hl2.Nodup)
    (hmem2 : ∀ x, x ∈ hl2 ↔ x ≠ fid ∧ x ∈ r.historyList)
    (hev : evGetB r.isEvictable fid = true) :
    Inv { r with historyList := hl2,
                 historyMap := sDel r.historyMap fid,
                 accessCount := mdel r.accessCount fid,
                 isEvictable := mdel r.isEvictable fid,
                 currSize := r.currSize - 1 } := by
  obtain ⟨c, hc, hcpos, hclt⟩ := hi.hCount fid hmem
  have hfidnc : fid ∉ r.cacheList := fun hc2 => hi.disj hmem hc2
  refine ⟨hnd2, hi.cNodup, ?_, hi.cMap, ?_, ?_, ?_, ?_,
    nodup_mkeys_mdel _ _ hi.acKeys, ?_⟩
  · intro x
    rw [mem_sDel, hmem2 x, hi.hMap x]
    tauto
  · intro x hx
    obtain ⟨hxne, hxl⟩ := (hmem2 x).mp hx
    obtain ⟨c2, hc2, h1, h2⟩ := hi.hCount x hxl
    exact ⟨c2, by rw [mget_mdel, if_neg hxne]; exact hc2, h1, h2⟩
  · intro x hx
    have hxne : x ≠ fid := fun he => hfidnc (he ▸ hx)
    obtain ⟨c2, hc2, hge⟩ := hi.cCount x hx
    exact ⟨c2, by rw [mget_mdel, if_neg hxne]; exact hc2, hge⟩
  · intro x hx
    rw [mget_mdel] at hx
    by_cases hxf : x = fid
    · rw [if_pos hxf] at hx
      simp at hx
    · rw [if_neg hxf] at hx
      rcases hi.tracked x hx with hh | hcx
      · left
        exact (hmem2 x).mpr ⟨hxf, hh⟩
      · right
        exact hcx
  · intro x hx
    rw [mget_mdel] at hx
    by_cases hxf : x = fid
    · rw [if_pos hxf] at hx
      simp at hx
    · rw [if_neg hxf] at hx
      rw [mget_mdel, if_neg hxf]
      exact hi.evDom x hx
  · have hkey := countEv_mdel r.accessCount r.isEvictable fid hi.acKeys (by simp [hc])
    rw [hev] at hkey
    have hsz2 := hi.size
    simp only [if_true] at hkey
    show r.currSize - 1 = countEv (mdel r.accessCount fid) (mdel r.isEvictable fid)
    omega

theorem inv_clear_cache {r : LRUKReplacer} (hi : Inv r) (fid : FrameId)
    (cl2 : List Nat) (hmem : fid ∈ r.cacheList) (hnd2 : cl2.Nodup)
    (hmem2 : ∀ x, x ∈ cl2 ↔ x ≠ fid ∧ x ∈ r.cacheList)
    (hev : evGetB r.isEvictable fid = true) :
    Inv { r with cacheList := cl2,
                 cacheMap := sDel r.cacheMap fid,
                 accessCount := mdel r.accessCount fid,
                 isEvictable := mdel r.isEvictable fid,
                 currSize := r.currSize - 1 } := by
  obtain ⟨c, hc, hge⟩ := hi.cCount fid hmem
  have hfidnh : fid ∉ r.historyList := fun hh => hi.disj hh hmem
  refine ⟨hi.hNodup, hnd2, hi.hMap, ?_, ?_, ?_, ?_, ?_,
    nodup_mkeys_mdel _ _ hi.acKeys, ?_⟩
  · intro x
    rw [mem_sDel, hmem2 x, hi.cMap x]
    tauto
  · intro x hx
    have hxne : x ≠ fid := fun he => hfidnh (he ▸ hx)
    obtain ⟨c2, hc2, h1, h2⟩ := hi.hCount x hx
    exact ⟨c2, by rw [mget_mdel, if_neg hxne]; exact hc2, h1, h2⟩
  · intro x hx
    obtain ⟨hxne, hxl⟩ := (hmem2 x).mp hx
    obtain ⟨c2, hc2, hge2⟩ := hi.cCount x hxl
    exact ⟨c2, by rw [mget_mdel, if_neg hxne]; exact hc2, hge2⟩
  · intro x hx
    rw [mget_mdel] at hx
    by_cases hxf : x = fid
    · rw [if_pos hxf] at hx
      simp at hx
    · rw [if_neg hxf] at hx
      rcases hi.tracked x hx with hh | hcx
      · left
        exact hh
      · right
        exact (hmem2 x).mpr ⟨hxf, hcx⟩
  · intro x hx
    rw [mget_mdel] at hx
    by_cases hxf : x = fid
    · rw [if_pos hxf] at hx
      simp at hx
    · rw [if_neg hxf] at hx
      rw [mget_mdel, if_neg hxf]
      exact hi.evDom x hx
  · have hkey := countEv_mdel r.accessCount r.isEvictable fid hi.acKeys (by simp [hc])
    rw [hev] at hkey
    have hsz2 := hi.size
    simp only [if_true] at hkey
    show r.currSize - 1 = countEv (mdel r.accessCount fid) (mdel r.isEvictable fid)
    omega

theorem inv_evict {r : LRUKReplacer} (hi : Inv r) : Inv (Evict r).2 := by
  by_cases hsz : r.currSize = 0
  · rw [Evict, if_pos hsz]
    exact hi
  · rw [Evict, if_neg hsz]
    cases hbv : backVictim r.historyList r.isEvictable with
    | some fid =>
      have hmem := backVictim_mem hbv
      have hev := backVictim_evictable hbv
      exact inv_clear_history hi fid (removeBackNode r.historyList fid) hmem
        (nodup_removeBackNode hi.hNodup) (mem_removeBackNode hi.hNodup) hev
    | none =>
      cases hbv2 : backVictim r.cacheList r.isEvictable with
      | some fid =>
        have hmem := backVictim_mem hbv2
        have hev := backVictim_evictable hbv2
        exact inv_clear_cache hi fid (removeBackNode r.cacheList fid) hmem
          (nodup_removeBackNode hi.cNodup) (mem_removeBackNode hi.cNodup) hev
      | none =>
        exact hi

theorem inv_remove {r r2 : LRUKReplacer} {fid : FrameId}
    (hi : Inv r) (h : Remove r fid = some r2) : Inv r2 := by
  simp only [Remove] at h
  split at h
  next => exact absurd h (by simp)
  next hover =>
  split at h
  next htrk =>
    have h2 := Option.some.inj h
    subst h2
    exact hi
  next htrk =>
  split at h
  next hev => exact absurd h (by simp)
  next hev =>
  have hevT : evGetB r.isEvictable fid = true := by
    cases hbb : evGetB r.isEvictable fid
    · exact absurd hbb hev
    · rfl
  split at h
  next hge =>
    split at h
    next hcm =>
      have h2 := Option.some.inj h
      subst h2
      have hmem : fid ∈ r.cacheList := (hi.cMap fid).mp hcm
      exact inv_clear_cache hi fid (r.cacheList.erase fid) hmem
        (hi.cNodup.erase fid) (fun x => hi.cNodup.mem_erase_iff) hevT
    next hcm => exact absurd h (by simp)
  next hge =>
    split at h
    next hhm =>
      have h2 := Option.some.inj h
      subst h2
      have hmem : fid ∈ r.historyList := (hi.hMap fid).mp hhm
      exact inv_clear_history hi fid (r.historyList.erase fid) hmem
        (hi.hNodup.erase fid) (fun x => hi.hNodup.mem_erase_iff) hevT
    next hhm => exact absurd h (by simp)

theorem reachR_inv {r : LRUKReplacer} (h : ReachR r) : Inv r := by
  induction h with
  | base numFrames k => exact inv_new numFrames k
  | recordAccess _ hstep ih => exact inv_recordAccess ih hstep
  | setEvictable _ hstep ih => exact inv_setEvictable ih hstep
  | evict _ ih => exact inv_evict ih
  | remove _ hstep ih => exact inv_remove ih hstep

end HermesDB.LRUK

namespace HermesDB.LRUK

/-! ## Replacer: helper facts -/

theorem currSize_pos {r : LRUKReplacer} (hi : Inv r) {fid : FrameId}
    (hac : (mget r.accessCount fid).isSome)
    (hev : evGetB r.isEvictable fid = true) : 0 < r.currSize := by
  have hkey := countEv_mdel r.accessCount r.isEvictable fid hi.acKeys hac
  rw [hev] at hkey
  have hsz := hi.size
  simp only [if_true] at hkey
  omega

end HermesDB.LRUK

namespace HermesDB.LRUK

/-! ## Replacer: claim theorems -/

/-- C3: Evict on a reachable state.  With currSize 0 it returns no frame
and changes nothing.  Otherwise it succeeds and returns the backmost
evictable frame of the history list when the history list has one, else the
backmost evictable frame of the cache list; the returned frame was
evictable, it is absent from both lists, both node-handle maps and both
per-frame maps afterwards, and currSize decreases by exactly one. -/
theorem C3_evict_spec (r : LRUKReplacer) (h : ReachR r) : EvictSpec r := by
  have hi := reachR_inv h
  constructor
  · intro hz
    rw [Evict, if_pos hz]
  · intro hnz
    rw [Evict, if_neg hnz]
    have hpos : 0 < countEv r.accessCount r.isEvictable := by
      have := hi.size
      omega
    obtain ⟨x, hxac, hxev⟩ := exists_evictable_of_pos _ _ hpos
    cases hbv : backVictim r.historyList r.isEvictable with
    | some fid =>
      have hmem := backVictim_mem hbv
      have hev := backVictim_evictable hbv
      refine ⟨fid, _, rfl, hev, ?_, ?_, ?_, ?_, ?_, ?_, ?_, ?_, ?_⟩
      · show r.currSize - 1 + 1 = r.currSize
        omega
      · exact fun hc => ((mem_removeBackNode hi.hNodup fid).mp hc).1 rfl
      · exact fun hc => hi.disj hmem hc
      · exact fun hc => ((mem_sDel _ _ _).mp hc).2 rfl
      · exact fun hc => hi.disj hmem ((hi.cMap fid).mp hc)
      · show mget (mdel r.accessCount fid) fid = none
        simp [mget_mdel]
      · show mget (mdel r.isEvictable fid) fid = none
        simp [mget_mdel]
      · intro hv hsome
        exact Option.some.inj hsome
      · intro hnone
        exact Option.noConfusion hnone
    | none =>
      cases hbv2 : backVictim r.cacheList r.isEvictable with
      | some fid =>
        have hmem := backVictim_mem hbv2
        have hev := backVictim_evictable hbv2
        refine ⟨fid, _, rfl, hev, ?_, ?_, ?_, ?_, ?_, ?_, ?_, ?_, ?_⟩
        · show r.currSize - 1 + 1 = r.currSize
          omega
        · exact fun hc => hi.disj hc hmem
        · exact fun hc => ((mem_removeBackNode hi.cNodup fid).mp hc).1 rfl
        · exact fun hc => hi.disj ((hi.hMap fid).mp hc) hmem
        · exact fun hc => ((mem_sDel _ _ _).mp hc).2 rfl
        · show mget (mdel r.accessCount fid) fid = none
          simp [mget_mdel]
        · show mget (mdel r.isEvictable fid) fid = none
          simp [mget_mdel]
        · intro hv hsome
          exact Option.noConfusion hsome
        · intro hnone
          rfl
      | none =>
        exfalso
        rcases hi.tracked x hxac with hh | hcx
        · have hs := backVictim_isSome hh hxev
          rw [hbv] at hs
          simp at hs
        · have hs := backVictim_isSome hcx hxev
          rw [hbv2] at hs
          simp at hs

theorem C3_witness : EvictSpec wr2 :=
  C3_evict_spec wr2
    (@ReachR.setEvictable wr1 wr2 1 true
      (@ReachR.recordAccess wr0 wr1 1 (ReachR.base 7 2) (by decide))
      (by decide))

/-- C5: in every state reachable by non-aborting operations, currSize
equals the number of tracked frames (keys of accessCount) whose isEvictable
flag is true, and Size returns exactly that number. -/
theorem C5_size_invariant (r : LRUKReplacer) (h : ReachR r) :
    r.currSize = countEvictable r ∧ Size r = countEvictable r := by
  have hs := (reachR_inv h).size
  rw [countEvictable_eq]
  exact ⟨hs, hs⟩

theorem C5_witness :
    wr2.currSize = countEvictable wr2 ∧ Size wr2 = countEvictable wr2 :=
  C5_size_invariant wr2
    (@ReachR.setEvictable wr1 wr2 1 true
      (@ReachR.recordAccess wr0 wr1 1 (ReachR.base 7 2) (by decide))
      (by decide))

/-- C6: the range check of RecordAccess, SetEvictable and Remove: a frame
id strictly greater than replacerSize aborts all three, any id at most
replacerSize passes checkOverstep, and id equal to replacerSize proceeds:
SetEvictable completes, Remove of an untracked frame is a silent no-op, and
RecordAccess of an unseen frame completes when k is at least 2. -/
theorem C6_range_check (r : LRUKReplacer) (fid : FrameId) (b : Bool) :
    (r.replacerSize < fid →
      RecordAccess r fid = none ∧ SetEvictable r fid b = none ∧
        Remove r fid = none) ∧
    (fid ≤ r.replacerSize → checkOverstep r fid = false) ∧
    (fid = r.replacerSize →
      (SetEvictable r fid b).isSome ∧
      (mget r.accessCount fid = none → Remove r fid = some r) ∧
      (mget r.accessCount fid = none → 2 ≤ r.k → (RecordAccess r fid).isSome)) := by
  refine ⟨?_, ?_, ?_⟩
  · intro hgt
    have hover : checkOverstep r fid = true := by
      simp only [checkOverstep, decide_eq_true_eq]
      exact hgt
    refine ⟨?_, ?_, ?_⟩ <;> simp [RecordAccess, SetEvictable, Remove, hover]
  · intro hle
    simp only [checkOverstep, decide_eq_false_iff_not]
    exact Nat.not_lt.mpr hle
  · intro heq
    have hover : checkOverstep r fid = false := by
      simp only [checkOverstep, decide_eq_false_iff_not]
      exact Nat.not_lt.mpr (Nat.le_of_eq heq)
    refine ⟨?_, ?_, ?_⟩
    · simp only [SetEvictable, hover, Bool.false_eq_true, if_false]
      by_cases htrk : (mget r.accessCount fid).isNone <;> simp [htrk]
    · intro hz
      simp [Remove, hover, hz]
    · intro hz hk
      simp only [RecordAccess, hover, Bool.false_eq_true, if_false]
      have hacg : acGetN r.accessCount fid = 0 := by simp [acGetN, hz]
      rw [hacg]
      rw [if_neg (by omega), if_neg (by omega)]
      simp

theorem C6_witness :
    RecordAccess (NewLRUKReplacer 7 2) 8 = none ∧
    checkOverstep (NewLRUKReplacer 7 2) 7 = false := by
  constructor
  · exact ((C6_range_check (NewLRUKReplacer 7 2) 8 true).1 (by decide)).1
  · exact (C6_range_check (NewLRUKReplacer 7 2) 7 true).2.1 (by decide)

/-- C9: for a reachable replacer with k at least 1 and an in-range frame
never seen before, RecordAccess completes exactly when k is at least 2.
With k equal to 1 the first access takes the graduation branch and removes
the history node through the nil handle of the missing historyMap entry,
a fatal runtime failure. -/
theorem C9_first_access (r : LRUKReplacer) (fid : FrameId) (h : ReachR r)
    (hid : fid ≤ r.replacerSize) (hk : 1 ≤ r.k)
    (hfresh : mget r.accessCount fid = none) :
    (RecordAccess r fid).isSome ↔ 2 ≤ r.k := by
  have hi := reachR_inv h
  have hover : checkOverstep r fid = false := by
    simp only [checkOverstep, decide_eq_false_iff_not]
    exact Nat.not_lt.mpr hid
  have hacg : acGetN r.accessCount fid = 0 := by simp [acGetN, hfresh]
  simp only [RecordAccess, hover, Bool.false_eq_true, if_false, hacg]
  constructor
  · intro hsome
    by_contra hk2
    rw [if_pos (by omega)] at hsome
    have hnm : fid ∉ r.historyMap := by
      intro hm
      obtain ⟨c, hc, -, -⟩ := hi.hCount fid ((hi.hMap fid).mp hm)
      rw [hfresh] at hc
      cases hc
    rw [if_neg hnm] at hsome
    simp at hsome
  · intro hk2
    rw [if_neg (by omega), if_neg (by omega)]
    simp

theorem C9_witness :
    (RecordAccess (NewLRUKReplacer 7 1) 0).isSome ↔ 2 ≤ (NewLRUKReplacer 7 1).k :=
  C9_first_access (NewLRUKReplacer 7 1) 0 (ReachR.base 7 1)
    (by decide) (by decide) (by decide)

end HermesDB.LRUK

namespace HermesDB.LRUK

/-- C7: Remove on a reachable state with an in-range frame id: an untracked
frame is a silent no-op with the whole state unchanged, a tracked
non-evictable frame is a fatal abort, and a tracked evictable frame is
deleted from the cache list when its count is at least k and from the
history list otherwise, deleted from both node-handle maps and both
per-frame maps, with currSize decremented by exactly one. -/
theorem C7_remove_spec (r : LRUKReplacer) (fid : FrameId) (h : ReachR r)
    (hid : fid ≤ r.replacerSize) : RemoveSpec r fid := by
  have hi := reachR_inv h
  have hover : checkOverstep r fid = false := by
    simp only [checkOverstep, decide_eq_false_iff_not]
    exact Nat.not_lt.mpr hid
  refine ⟨?_, ?_, ?_⟩
  · intro hz
    simp [Remove, hover, hz]
  · intro c hc hev
    simp [Remove, hover, hc, hev]
  · intro c hc hev
    have hacg : acGetN r.accessCount fid = c := by simp [acGetN, hc]
    have hacs : (mget r.accessCount fid).isSome := by simp [hc]
    by_cases hge : r.k ≤ c
    · have hfidc : fid ∈ r.cacheList := by
        rcases hi.tracked fid hacs with hh | hcx
        · obtain ⟨c2, hc2, -, hlt⟩ := hi.hCount fid hh
          rw [hc] at hc2
          have hcc := Option.some.inj hc2
          omega
        · exact hcx
      have hcm : fid ∈ r.cacheMap := (hi.cMap fid).mpr hfidc
      have hfidnh : fid ∉ r.historyList := fun hh => hi.disj hh hfidc
      have hrem : Remove r fid = some (clearFrame { r with
          cacheList := r.cacheList.erase fid,
          cacheMap := sDel r.cacheMap fid } fid) := by
        rw [Remove, if_neg (by simp [hover]), if_neg (by simp [hc]),
          if_neg (by simp [hev]), if_pos (by rw [hacg]; exact hge), if_pos hcm]
      refine ⟨_, hrem, ?_, ?_, ?_, ?_, ?_, ?_, ?_⟩
      · intro hge2
        exact ⟨hfidc, rfl, rfl⟩
      · intro hlt
        exact absurd hge (by omega)
      · exact fun hc2 => hfidnh ((hi.hMap fid).mp hc2)
      · exact fun hc2 => ((mem_sDel _ _ _).mp hc2).2 rfl
      · show mget (mdel r.accessCount fid) fid = none
        simp [mget_mdel]
      · show mget (mdel r.isEvictable fid) fid = none
        simp [mget_mdel]
      · have hpos := currSize_pos hi hacs hev
        show r.currSize - 1 + 1 = r.currSize
        omega
    · have hfidh : fid ∈ r.historyList := by
        rcases hi.tracked fid hacs with hh | hcx
        · exact hh
        · obtain ⟨c2, hc2, hge2⟩ := hi.cCount fid hcx
          rw [hc] at hc2
          have hcc := Option.some.inj hc2
          omega
      have hhm : fid ∈ r.historyMap := (hi.hMap fid).mpr hfidh
      have hfidnc : fid ∉ r.cacheList := fun hcx => hi.disj hfidh hcx
      have hrem : Remove r fid = some (clearFrame { r with
          historyList := r.historyList.erase fid,
          historyMap := sDel r.historyMap fid } fid) := by
        rw [Remove, if_neg (by simp [hover]), if_neg (by simp [hc]),
          if_neg (by simp [hev]), if_neg (by rw [hacg]; omega), if_pos hhm]
      refine ⟨_, hrem, ?_, ?_, ?_, ?_, ?_, ?_, ?_⟩
      · intro hge2
        exact absurd hge2 (by omega)
      · intro hlt2
        exact ⟨hfidh, rfl, rfl⟩
      · exact fun hc2 => ((mem_sDel _ _ _).mp hc2).2 rfl
      · exact fun hc2 => hfidnc ((hi.cMap fid).mp hc2)
      · show mget (mdel r.accessCount fid) fid = none
        simp [mget_mdel]
      · show mget (mdel r.isEvictable fid) fid = none
        simp [mget_mdel]
      · have hpos := currSize_pos hi hacs hev
        show r.currSize - 1 + 1 = r.currSize
        omega

theorem C7_witness : RemoveSpec wr2 1 :=
  C7_remove_spec wr2 1
    (@ReachR.setEvictable wr1 wr2 1 true
      (@ReachR.recordAccess wr0 wr1 1 (ReachR.base 7 2) (by decide))
      (by decide))
    (by decide)

/-- C4 counterexample: with k = 3, access frame 1, then frame 2, then frame
1 again (its count becomes 2, still below k).  The claim says the repeat
access does not move frame 1 ahead of frame 2, whose first access is more
recent, and that Evict still selects the evictable history frame with the
earliest first access (frame 1).  The code instead moves frame 1 to the
front: the history list becomes [1, 2], and after making both evictable,
Evict returns frame 2, not frame 1. -/
theorem C4_counterexample :
    (RecordAccess cx2 1).isSome = true ∧
    cx3.historyList = [1, 2] ∧
    (Evict cx5).1 = some 2 ∧ (Evict cx5).1 ≠ some 1 := by
  decide

/-- C4 amended: while a frame keeps its access count below k, a repeat
RecordAccess moves it to the front of the history list, removing its old
node: the history list is ordered most-recent-first by the most recent
access (not by first access), so Evict selects the evictable history frame
whose most recent access is oldest. -/
theorem C4_amended_move_to_front (r r2 : LRUKReplacer) (fid : FrameId)
    (h : RecordAccess r fid = some r2)
    (hlt : acGetN r.accessCount fid + 1 < r.k) :
    r2.historyList = fid ::
      (if fid ∈ r.historyMap then r.historyList.erase fid
       else r.historyList) := by
  simp only [RecordAccess] at h
  split at h
  next => exact absurd h (by simp)
  next =>
  split at h
  next hk => exact absurd hk (by omega)
  next =>
  split at h
  next hgt => exact absurd hgt (by omega)
  next =>
    have h2 := Option.some.inj h
    subst h2
    rfl

theorem C4_amended_witness :
    cx3.historyList = 1 ::
      (if 1 ∈ cx2.historyMap then cx2.historyList.erase 1
       else cx2.historyList) :=
  C4_amended_move_to_front cx2 cx3 1 (by decide) (by decide)

end HermesDB.LRUK
